import Mathlib

set_option maxRecDepth 4000

/-!
Verification development for the mempool block projection engine
(`src/backend/src/api/mempool-blocks.ts`).

Modelling conventions:
* JavaScript numbers are modelled as exact rationals (`ℚ`).  All the
  arithmetic the claims exercise is exact at the default configuration
  (in particular `4000000 * 1.2 = 4800000` is exact in IEEE doubles), so
  no rounding behaviour is lost.
* Integer-valued quantities of the data model (`fee` in satoshis,
  `weight` in weight units, `size` in bytes) are modelled as `ℕ`; the
  data model defines them as counts (weight is `4 × non-witness bytes +
  witness bytes`), hence non-negative.
* `effectiveFeePerVsize` is modelled as `ℚ` with `0` playing the role of
  "unset": the only read that distinguishes an absent value from `0` in
  this code is the JavaScript truthiness test
  `!tx.effectiveFeePerVsize`, which identifies `undefined`, `null` and
  `0`.
* The mempool map `{[txid: string]: TransactionExtended}` is modelled as
  a list of transactions; the map's keys are the `txid` fields, and
  well-formedness of the map (distinct keys) appears as a `Nodup`
  hypothesis where a claim needs it.
* In-place mutation of shared transaction objects is modelled by
  explicitly rebuilding the list with updated records.
-/

/-- Summary record for a CPFP relative: `{txid, fee, weight}`
(`Ancestor` in `mempool.interfaces`). -/
structure Ancestor where
  txid : String
  fee : ℕ
  weight : ℕ
deriving Repr, DecidableEq

/-- Position of a transaction inside the projected blocks:
`{block, vsize}`. -/
structure TxPosition where
  block : ℕ
  vsize : ℚ
deriving Repr, DecidableEq

/-- Model of `TransactionExtended`, restricted to the fields
`mempool-blocks.ts` reads or writes. -/
structure Tx where
  txid : String
  fee : ℕ
  weight : ℕ
  vsize : ℚ
  size : ℕ
  feePerVsize : ℚ
  effectiveFeePerVsize : ℚ
  vin : List String
  ancestors : List Ancestor
  descendants : List Ancestor
  bestDescendant : Option Ancestor
  cpfpChecked : Option Bool
  position : Option TxPosition
deriving Repr, DecidableEq

/-- Modelled from the spec: `Common.stripTransaction` (an external
helper, spec §6) produces the compact client-facing form of a
transaction — txid, fee, vsize and the fee rate. -/
structure TransactionStripped where
  txid : String
  fee : ℕ
  vsize : ℚ
  rate : Option ℚ
deriving Repr, DecidableEq

/-- Modelled from the spec: the client-facing projection of a
transaction (txid, fee, vsize, fee rate). -/
def stripTransaction (tx : Tx) : TransactionStripped :=
  { txid := tx.txid, fee := tx.fee, vsize := tx.vsize,
    rate := some tx.effectiveFeePerVsize }

/-- Entry of the `changed` list of a delta: `{txid, rate}` where the
rate may be absent. -/
structure ChangedEntry where
  txid : String
  rate : Option ℚ
deriving Repr, DecidableEq

/-- Model of `MempoolBlockWithTransactions`. -/
structure MempoolBlockWithTransactions where
  blockSize : ℕ
  blockVSize : ℚ
  nTx : ℕ
  totalFees : ℕ
  medianFee : ℚ
  feeRange : List ℚ
  transactionIds : List String
  transactions : List TransactionStripped
deriving Repr, DecidableEq

/-- Model of `MempoolBlockDelta`. -/
structure MempoolBlockDelta where
  added : List TransactionStripped
  removed : List String
  changed : List ChangedEntry
deriving Repr, DecidableEq

/-- Modelled from the spec: the configuration values read from
`config.MEMPOOL` (spec §6; the config module is not part of this
snapshot).  Defaults are `BLOCK_WEIGHT_UNITS = 4000000` and
`MEMPOOL_BLOCKS_AMOUNT = 8`. -/
structure Config where
  BLOCK_WEIGHT_UNITS : ℕ
  MEMPOOL_BLOCKS_AMOUNT : ℕ
deriving Repr, DecidableEq

/-- Default configuration per spec §6. -/
def defaultConfig : Config := ⟨4000000, 8⟩

/-- Modelled from the spec: result shape of
`Common.calcEffectiveFeeStatistics` (external helper, spec §6). -/
structure FeeStats where
  medianFee : ℚ
  feeRange : List ℚ
deriving Repr, DecidableEq

/-- Modelled from the spec: `Common.calcEffectiveFeeStatistics` is an
external statistics helper (spec §6) whose algorithm is out of scope;
it returns a median fee rate and a list of percentile fee rates over
the effective fee rates of the given transactions.  Modelled as the
middle element of the ascending-sorted effective rates and the sorted
list itself.  No claim inspects these fields. -/
def calcEffectiveFeeStatistics (txs : List Tx) : FeeStats :=
  let rates := List.insertionSort (fun a b => a ≤ b) (txs.map Tx.effectiveFeePerVsize)
  { medianFee := (rates.getD (rates.length / 2) 0),
    feeRange := rates }

/-- Running state of the retained-transactions scan in
`dataToMempoolBlocks`: `(totalSize, totalWeight, fitTransactions)`. -/
def fitStep (cfg : Config) (acc : ℕ × ℕ × List Tx) (tx : Tx) : ℕ × ℕ × List Tx :=
  let totalSize := acc.1 + tx.size
  let totalWeight := acc.2.1 + tx.weight
  let fit :=
    if ((totalWeight + tx.weight : ℕ) : ℚ) ≤ (cfg.BLOCK_WEIGHT_UNITS : ℚ) * (6 / 5) then
      acc.2.2 ++ [tx]
    else
      acc.2.2
  (totalSize, totalWeight, fit)

/-- Accumulator scan of `dataToMempoolBlocks` (lines 352-361): sums
sizes and weights and collects the transactions retained under the
relaxed `1.2 × BLOCK_WEIGHT_UNITS` cap.  Note the running `totalWeight`
already includes the current transaction when the check adds
`tx.weight` once more, exactly as in the source.  The literal `1.2` is
written `6 / 5`; at the default configuration the product is exact in
IEEE doubles as well. -/
def fitScan (cfg : Config) (transactions : List Tx) : ℕ × ℕ × List Tx :=
  transactions.foldl (fitStep cfg) (0, 0, [])

/-- Retained client-facing subset computed by `dataToMempoolBlocks`
(before stripping). -/
def fitTransactions (cfg : Config) (transactions : List Tx) : List Tx :=
  (fitScan cfg transactions).2.2

/-- Model of `dataToMempoolBlocks` (lines 351-373). -/
def dataToMempoolBlocks (cfg : Config) (transactions : List Tx) :
    MempoolBlockWithTransactions :=
  let st := fitScan cfg transactions
  let feeStats := calcEffectiveFeeStatistics transactions
  { blockSize := st.1,
    blockVSize := ((st.2.1 : ℕ) : ℚ) / 4,
    nTx := transactions.length,
    totalFees := transactions.foldl (fun acc cur => acc + cur.fee) 0,
    medianFee := feeStats.medianFee,
    feeRange := feeStats.feeRange,
    transactionIds := transactions.map Tx.txid,
    transactions := (fitTransactions cfg transactions).map stripTransaction }

/-- Loop state of `calculateMempoolBlocks` (lines 102-134).  Instead of
pushing `dataToMempoolBlocks(transactions)` eagerly, the finalized raw
transaction groups are collected in `groups`; `dataToMempoolBlocks` is
a pure function of the group contents and nothing mutates a group after
it is finalized, so mapping `dataToMempoolBlocks` over the groups at
the end yields the very same block list the source builds. -/
structure PackState where
  groups : List (List Tx)
  blockWeight : ℕ
  blockVsize : ℚ
  transactions : List Tx
deriving Repr, DecidableEq

/-- One iteration of the `transactionsSorted.forEach` loop of
`calculateMempoolBlocks` (lines 107-128), including the `tx.position`
assignment.  In the overflow branch the block index is the length of
the block list after the push, as in the source. -/
def packStep (cfg : Config) (st : PackState) (tx : Tx) : PackState :=
  if st.blockWeight + tx.weight ≤ cfg.BLOCK_WEIGHT_UNITS
      ∨ (st.groups.length : ℤ) = (cfg.MEMPOOL_BLOCKS_AMOUNT : ℤ) - 1 then
    { groups := st.groups,
      blockWeight := st.blockWeight + tx.weight,
      blockVsize := st.blockVsize + tx.vsize,
      transactions := st.transactions ++
        [{ tx with position := some ⟨st.groups.length, st.blockVsize + tx.vsize / 2⟩ }] }
  else
    { groups := st.groups ++ [st.transactions],
      blockWeight := tx.weight,
      blockVsize := tx.vsize,
      transactions :=
        [{ tx with position := some ⟨st.groups.length + 1, tx.vsize / 2⟩ }] }

/-- Final flush of `calculateMempoolBlocks` (lines 129-131): a trailing
non-empty accumulator becomes the last block. -/
def packFinish (st : PackState) : List (List Tx) :=
  if st.transactions.length ≠ 0 then st.groups ++ [st.transactions] else st.groups

/-- Raw per-block transaction groups assembled by
`calculateMempoolBlocks`, with `position` assigned on every packed
transaction. -/
def packGroups (cfg : Config) (transactionsSorted : List Tx) : List (List Tx) :=
  packFinish (transactionsSorted.foldl (packStep cfg) ⟨[], 0, 0, []⟩)

/-- Model of `calculateMempoolBlocks` (lines 102-134). -/
def calculateMempoolBlocks (cfg : Config) (transactionsSorted : List Tx) :
    List MempoolBlockWithTransactions :=
  (packGroups cfg transactionsSorted).map (dataToMempoolBlocks cfg)

/-- Total weight of a transaction group. -/
def sumW (g : List Tx) : ℕ := (g.map Tx.weight).sum

/-- Total vsize of a transaction group. -/
def sumV (g : List Tx) : ℚ := (g.map Tx.vsize).sum

/-- Projection of a transaction's assigned `position.vsize` (0 when no
position has been assigned). -/
def posV (t : Tx) : ℚ := (t.position.map TxPosition.vsize).getD 0

/-- Erases the `position` field; the packing loop only ever mutates
`position`, so packed transactions agree with their inputs modulo this
projection. -/
def erasePos (t : Tx) : Tx := { t with position := none }

/-- JavaScript-object model used by `calculateMempoolDeltas` (lines
147-154): building `prevIds[tx.txid] = tx` over a list means a later
entry with the same txid overwrites an earlier one, so a lookup returns
the last matching record. -/
def objLookup (txs : List TransactionStripped) (k : String) : Option TransactionStripped :=
  txs.foldl (fun acc t => if t.txid = k then some t else acc) none

/-- Both-blocks-exist case of `calculateMempoolDeltas` (lines 146-166).
The `removed` scan and the combined `added`/`changed` scan mirror the
two `forEach` loops of the source; `newIds` membership is modelled by
`(objLookup …).isSome` (the source stores `true` under each key). -/
def deltaBoth (pb nb : MempoolBlockWithTransactions) : MempoolBlockDelta :=
  let removed := pb.transactions.foldl
    (fun acc t => if (objLookup nb.transactions t.txid).isSome then acc else acc ++ [t.txid]) []
  let ac := nb.transactions.foldl
    (fun (acc : List TransactionStripped × List ChangedEntry) t =>
      match objLookup pb.transactions t.txid with
      | none => (acc.1 ++ [t], acc.2)
      | some p => if t.rate ≠ p.rate then (acc.1, acc.2 ++ [⟨t.txid, t.rate⟩]) else acc)
    ([], [])
  { added := ac.1, removed := removed, changed := ac.2 }

/-- Model of `calculateMempoolDeltas` (lines 136-175).  Out-of-range
indexing of a JavaScript array yields `undefined`, modelled by
`List.get?`; the impossible both-missing case produces the same empty
delta the source would push. -/
def calculateMempoolDeltas (prevBlocks mempoolBlocks : List MempoolBlockWithTransactions) :
    List MempoolBlockDelta :=
  (List.range (max mempoolBlocks.length prevBlocks.length)).map (fun i =>
    match mempoolBlocks.get? i, prevBlocks.get? i with
    | some nb, none => { added := nb.transactions, removed := [], changed := [] }
    | none, some pb => { added := [], removed := pb.transactions.map TransactionStripped.txid, changed := [] }
    | some nb, some pb => deltaBoth pb nb
    | none, none => { added := [], removed := [], changed := [] })

/-- Lookup in the mempool map: the map's key is the `txid` field. -/
def mplookup (mp : List Tx) (k : String) : Option Tx :=
  mp.find? (fun t => t.txid == k)

/-- Clearing pass of `updateMempoolBlocks` (lines 47-54): reset
`bestDescendant`, `ancestors` and `cpfpChecked`, and initialize a falsy
`effectiveFeePerVsize` to `feePerVsize`. -/
def clearTx (t : Tx) : Tx :=
  { t with
    bestDescendant := none
    ancestors := []
    cpfpChecked := some false
    effectiveFeePerVsize :=
      if t.effectiveFeePerVsize = 0 then t.feePerVsize else t.effectiveFeePerVsize }

/-- Lexicographic strict order on character lists, modelling the
JavaScript `<` comparison of strings (txids are lowercase hex, where
code-unit order and character order agree). -/
def charListLt : List Char → List Char → Bool
  | [], [] => false
  | [], _ :: _ => true
  | _ :: _, [] => false
  | a :: as, b :: bs => if a < b then true else if b < a then false else charListLt as bs

/-- JavaScript string comparison `a < b` for txids. -/
def txidLt (a b : String) : Bool := charListLt a.data b.data

/-- First sort comparator of `updateMempoolBlocks` (lines 57-64):
`feePerVsize` descending with lexicographic txid tie-break
(`a.txid < b.txid ? -1 : 1`). -/
def cmpFee (a b : Tx) : Bool :=
  if a.feePerVsize = b.feePerVsize then txidLt a.txid b.txid
  else decide (b.feePerVsize < a.feePerVsize)

/-- Final sort comparator of `updateMempoolBlocks` (lines 78-85):
`effectiveFeePerVsize` descending with lexicographic txid tie-break. -/
def cmpEffectiveFee (a b : Tx) : Bool :=
  if a.effectiveFeePerVsize = b.effectiveFeePerVsize then txidLt a.txid b.txid
  else decide (b.effectiveFeePerVsize < a.effectiveFeePerVsize)

/-- Mempool array after the clearing pass and the first sort of
`updateMempoolBlocks` — the iteration order of the CPFP resolution
loop.  The comparator is a total order (strict on distinct txids), so
any correct sort produces the order `Array.prototype.sort` settles on;
a structurally recursive insertion sort is used so that concrete runs
reduce inside the kernel. -/
def sortedInitial (memPool : List Tx) : List Tx :=
  List.insertionSort (fun a b => cmpFee a b = true) (memPool.map clearTx)

/-- Fee rate of a `{txid, fee, weight}` summary. -/
def ancRate (a : Ancestor) : ℚ := (a.fee : ℚ) / ((a.weight : ℚ) / 4)

/-- Summary record of a transaction used for CPFP bookkeeping. -/
def txSummary (t : Tx) : Ancestor := ⟨t.txid, t.fee, t.weight⟩

/-- Modelled from the spec: fueled worklist computing the ancestor
closure of spec §4.1 — every ancestor reachable through `vin` whose
txid is present in the mempool, transitively; missing ancestors are
skipped, and visited txids are never revisited. -/
def ancestorClosureGo (mp : List Tx) : ℕ → List String → List String → List String
  | 0, _, acc => acc
  | _ + 1, [], acc => acc
  | fuel + 1, t :: rest, acc =>
      if t ∈ acc then ancestorClosureGo mp fuel rest acc
      else
        match mplookup mp t with
        | none => ancestorClosureGo mp fuel rest acc
        | some e => ancestorClosureGo mp fuel (rest ++ e.vin) (acc ++ [t])

/-- Fuel bound for the ancestor worklist: each mempool transaction can
extend the frontier at most once, by its own `vin`. -/
def closureFuel (mp : List Tx) (tx : Tx) : ℕ :=
  mp.foldl (fun a t => a + t.vin.length) 0 + tx.vin.length + mp.length + 1

/-- Modelled from the spec: the field updates performed by one call of
`Common.setRelativesAndGetCpfpInfo` (spec §4.1), applied positionally.
The pivot transaction at index `pivot` receives its new `ancestors`,
`effectiveFeePerVsize` and `cpfpChecked`; every ancestor receives the
`bestDescendant` update; all other records are untouched. -/
def resolveApply (pivot : ℕ) (upd : Tx) (ancIds : List String) (cand : Ancestor) :
    ℕ → List Tx → List Tx
  | _, [] => []
  | j, e :: rest =>
      (if j = pivot then upd
       else if e.txid ∈ ancIds then
         { e with bestDescendant :=
             match e.bestDescendant with
             | none => some cand
             | some old => if ancRate old < ancRate cand then some cand else some old }
       else e) :: resolveApply pivot upd ancIds cand (j + 1) rest

/-- Modelled from the spec: `Common.setRelativesAndGetCpfpInfo` (spec
§4.1), which lives in `src/backend/src/api/common.ts`, not part of this
snapshot.  Given the transaction at index `i` of the shared array it
(1) populates its `ancestors` with `{txid, fee, weight}` summaries of
the ancestor closure, (2) updates each ancestor's `bestDescendant`
with the better of the transaction itself and its current
`bestDescendant`, (3) recomputes `effectiveFeePerVsize` as the maximum
of its own `feePerVsize` and the package rate over the closure
including itself, and (4) sets `cpfpChecked`. -/
def setRelativesAndGetCpfpInfo (arr : List Tx) (i : ℕ) : List Tx :=
  match arr.get? i with
  | none => arr
  | some tx =>
      let ancIds := ancestorClosureGo arr (closureFuel arr tx) tx.vin []
      let ancs := ancIds.filterMap (fun t => (mplookup arr t).map txSummary)
      let totalFee : ℕ := tx.fee + (ancs.map Ancestor.fee).sum
      let totalWeight : ℕ := tx.weight + (ancs.map Ancestor.weight).sum
      let packageRate : ℚ := (totalFee : ℚ) / ((totalWeight : ℚ) / 4)
      let cand : Ancestor :=
        match tx.bestDescendant with
        | some bd => if ancRate (txSummary tx) < ancRate bd then bd else txSummary tx
        | none => txSummary tx
      let upd : Tx :=
        { tx with
          ancestors := ancs
          effectiveFeePerVsize := max tx.feePerVsize packageRate
          cpfpChecked := some true }
      resolveApply i upd ancIds cand 0 arr

/-- CPFP resolution loop of `updateMempoolBlocks` (lines 68-75): walk
the sorted array accumulating `sizes`; once `sizes` (including the
current transaction's weight) exceeds the hard-coded `4000000 * 8`,
the iteration skips resolution and moves on.  The fuel equals the
array length, which `setRelativesAndGetCpfpInfo` preserves. -/
def cpfpGo : ℕ → List Tx → ℕ → ℕ → List Tx
  | 0, arr, _, _ => arr
  | fuel + 1, arr, k, tot =>
      match arr.get? k with
      | none => arr
      | some tx =>
          if 4000000 * 8 < tot + tx.weight then cpfpGo fuel arr (k + 1) (tot + tx.weight)
          else cpfpGo fuel (setRelativesAndGetCpfpInfo arr k) (k + 1) (tot + tx.weight)

/-- Resolution pass over the whole sorted array. -/
def cpfpPass (arr : List Tx) : List Tx := cpfpGo arr.length arr 0 0

/-- Mempool array after clearing, first sort, CPFP resolution and the
final `effectiveFeePerVsize` sort (lines 47-85) — the packing order
handed to `calculateMempoolBlocks`. -/
def resolvedSorted (memPool : List Tx) : List Tx :=
  List.insertionSort (fun a b => cmpEffectiveFee a b = true) (cpfpPass (sortedInitial memPool))

/-- Blocks computed by `updateMempoolBlocks` (line 91). -/
def runUpdateBlocks (cfg : Config) (memPool : List Tx) :
    List MempoolBlockWithTransactions :=
  calculateMempoolBlocks cfg (resolvedSorted memPool)

/-- Mempool contents at the end of an `updateMempoolBlocks` call:
packing assigns every transaction of the sorted array to exactly one
group, mutating only `position`, so the flattened groups are the final
states of all mempool records. -/
def finalMempoolArray (cfg : Config) (memPool : List Tx) : List Tx :=
  (packGroups cfg (resolvedSorted memPool)).flatten

/-- Published snapshot owned by the orchestrator: the private
`mempoolBlocks` and `mempoolBlockDeltas` fields. -/
structure SavedState where
  mempoolBlocks : List MempoolBlockWithTransactions
  mempoolBlockDeltas : List MempoolBlockDelta
deriving Repr, DecidableEq

/-- Read accessor `getMempoolBlocksWithTransactions` (lines 28-30). -/
def getMempoolBlocksWithTransactions (s : SavedState) :
    List MempoolBlockWithTransactions := s.mempoolBlocks

/-- Read accessor `getMempoolBlockDeltas` (lines 32-34). -/
def getMempoolBlockDeltas (s : SavedState) : List MempoolBlockDelta :=
  s.mempoolBlockDeltas

/-- Model of `updateMempoolBlocks` (lines 36-100): compute the blocks
from the mempool and, when `saveResults` is set, replace the stored
snapshot, diffing the previously stored blocks against the new ones. -/
def updateMempoolBlocks (cfg : Config) (s : SavedState) (memPool : List Tx)
    (saveResults : Bool) : SavedState × List MempoolBlockWithTransactions :=
  let blocks := runUpdateBlocks cfg memPool
  if saveResults then
    ({ mempoolBlocks := blocks,
       mempoolBlockDeltas := calculateMempoolDeltas s.mempoolBlocks blocks }, blocks)
  else
    (s, blocks)

/-- Modelled from the spec: `ThreadTransaction` (spec §3), the compact
record exchanged with the template-builder worker; result entries carry
optional `effectiveFeePerVsize`, `cpfpRoot` and `cpfpChecked`. -/
structure ThreadTransaction where
  txid : String
  fee : ℕ
  weight : ℕ
  feePerVsize : ℚ
  effectiveFeePerVsize : Option ℚ
  vin : List String
  cpfpRoot : Option String
  cpfpChecked : Option Bool
deriving Repr, DecidableEq

/-- Point update of a mempool record chosen by txid (object mutation
`mempool[txid].field = …`). -/
def mpUpdate (mp : List Tx) (k : String) (f : Tx → Tx) : List Tx :=
  mp.map (fun e => if e.txid = k then f e else e)

/-- One step of the cluster walk of `processBlockTemplates` (lines
304-323): skip falsy or missing members, flip `matched` at the pivot,
and push `{txid, fee, weight}` summaries before the pivot to
`ancestors` and after it to `descendants`.  State is
`(ancestors, descendants, matched)`. -/
def clusterStep (mp : List Tx) (pivot : String)
    (st : List Ancestor × List Ancestor × Bool) (txid : String) :
    List Ancestor × List Ancestor × Bool :=
  if txid = "" then st
  else
    match mplookup mp txid with
    | none => st
    | some e =>
        if txid = pivot then (st.1, st.2.1, true)
        else
          let rel : Ancestor := ⟨txid, e.fee, e.weight⟩
          if st.2.2 then (st.1, st.2.1 ++ [rel], true)
          else (st.1 ++ [rel], st.2.1, false)

/-- Enrichment of one worker-result transaction (lines 287-332):
assign `position` from the per-block running vsize, copy a present
`effectiveFeePerVsize`, rebuild `ancestors`/`descendants` from the
transaction's cluster (clearing `bestDescendant`), and copy
`cpfpChecked`.  A txid that is falsy or absent from the live mempool is
skipped without advancing the running vsize.  State is
`(mempool, runningVsize)`. -/
def enrichTx (clusters : List (String × List String)) (blockIndex : ℕ)
    (acc : List Tx × ℚ) (tx : ThreadTransaction) : List Tx × ℚ :=
  if tx.txid = "" then acc
  else
    match mplookup acc.1 tx.txid with
    | none => acc
    | some entry =>
        let mp1 := mpUpdate acc.1 tx.txid (fun e =>
          { e with position := some ⟨blockIndex, acc.2 + entry.vsize / 2⟩ })
        let running2 := acc.2 + entry.vsize
        let mp2 :=
          match tx.effectiveFeePerVsize with
          | some eff => mpUpdate mp1 tx.txid (fun e => { e with effectiveFeePerVsize := eff })
          | none => mp1
        let mp3 :=
          match tx.cpfpRoot with
          | some root =>
              if root = "" then mp2
              else
                match (clusters.find? (fun c => c.1 == root)) with
                | some c =>
                    let ad := c.2.foldl (clusterStep mp2 tx.txid) ([], [], false)
                    mpUpdate mp2 tx.txid (fun e =>
                      { e with
                        ancestors := ad.1
                        descendants := ad.2.1
                        bestDescendant := none })
                | none => mp2
          | none => mp2
        let mp4 := mpUpdate mp3 tx.txid (fun e => { e with cpfpChecked := tx.cpfpChecked })
        (mp4, running2)

/-- Enrichment loop over all worker-result blocks (lines 285-333); the
running vsize restarts at `0` for each block while the mempool
mutations accumulate. -/
def enrichBlocks (clusters : List (String × List String))
    (blocks : List (List ThreadTransaction)) (mp : List Tx) : List Tx :=
  blocks.enum.foldl
    (fun m (p : ℕ × List ThreadTransaction) =>
      (p.2.foldl (enrichTx clusters p.1) (m, 0)).1) mp

/-- Model of `processBlockTemplates` (lines 283-349): enrich the live
mempool from the worker result, rebuild the proper mempool blocks from
the live records (dropping txids that vanished), and, when
`saveResults` is set, replace the stored snapshot, diffing the
previously stored blocks against the new ones.  Returns the new
snapshot state, the updated mempool and the computed blocks. -/
def processBlockTemplates (cfg : Config) (s : SavedState) (mempool : List Tx)
    (blocks : List (List ThreadTransaction)) (clusters : List (String × List String))
    (saveResults : Bool) :
    SavedState × List Tx × List MempoolBlockWithTransactions :=
  let mp := enrichBlocks clusters blocks mempool
  let mempoolBlocks := blocks.map (fun transactions =>
    dataToMempoolBlocks cfg (transactions.filterMap (fun t => mplookup mp t.txid)))
  if saveResults then
    ({ mempoolBlocks := mempoolBlocks,
       mempoolBlockDeltas := calculateMempoolDeltas s.mempoolBlocks mempoolBlocks },
     mp, mempoolBlocks)
  else
    (s, mp, mempoolBlocks)

/-! ## Derived definitions used by the specification statements -/

/-- Pairs each transaction with the inclusive running weight
`W_i = acc + Σ_{j ≤ i} weight_j` — the value the retained-transactions
check of `dataToMempoolBlocks` sees. -/
def inclPrefixW (acc : ℕ) : List Tx → List (ℕ × Tx)
  | [] => []
  | t :: ts => (acc + t.weight, t) :: inclPrefixW (acc + t.weight) ts

/-- Specification form of a delta's `removed` list: the txids present
in the previous block's transactions but not in the new block's. -/
def removedSpec (pb nb : MempoolBlockWithTransactions) : List String :=
  (pb.transactions.filter
    (fun t => decide (t.txid ∉ nb.transactions.map TransactionStripped.txid))).map
    TransactionStripped.txid

/-- Specification form of a delta's `added` list: the stripped records
present in the new block's transactions but not in the previous
block's. -/
def addedSpec (pb nb : MempoolBlockWithTransactions) : List TransactionStripped :=
  nb.transactions.filter
    (fun t => decide (t.txid ∉ pb.transactions.map TransactionStripped.txid))

/-- Specification form of a delta's `changed` list: `{txid, rate}` for
each new-block transaction whose txid also occurs in the previous block
but whose rate differs from that previous record's rate. -/
def changedSpec (pb nb : MempoolBlockWithTransactions) : List ChangedEntry :=
  nb.transactions.filterMap (fun t =>
    match pb.transactions.find? (fun p => p.txid == t.txid) with
    | some p => if t.rate ≠ p.rate then some ⟨t.txid, t.rate⟩ else none
    | none => none)

/-- Weight of the index range `[a, b)` of an array. -/
def rangeSumW (arr : List Tx) (a b : ℕ) : ℕ := sumW ((arr.take b).drop a)

/-- The pair of fields of a mempool record that witness CPFP
resolution: the effective fee rate and the `cpfpChecked` flag. -/
def effState (t : Tx) : ℚ × Option Bool := (t.effectiveFeePerVsize, t.cpfpChecked)

/-! ## Concrete example inputs -/

/-- Transaction constructor for concrete runs: txid, fee, weight, vsize
and the two fee rates, with empty relationship fields. -/
def baseTx (id : String) (fee w : ℕ) (v fpv eff : ℚ) : Tx :=
  ⟨id, fee, w, v, w / 4, fpv, eff, [], [], [], none, none, none⟩

/-- Two transactions where the first alone overflows a block: the
middle of the three resulting blocks carries more than
`BLOCK_WEIGHT_UNITS`. -/
def exOverweight : List Tx :=
  [baseTx "aa" 10 5000000 1250000 1 1, baseTx "bb" 10 100 25 1 1]

/-- Three transactions of moderate weight for the weight-cap witness. -/
def exModerate : List Tx :=
  [baseTx "aa" 10 3000000 750000 1 1, baseTx "bb" 10 2000000 500000 1 1,
   baseTx "cc" 10 2000000 500000 1 1]

/-- Two transactions of vsize zero: their assigned positions tie. -/
def exZeroVsize : List Tx :=
  [baseTx "aa" 10 40 0 1 1, baseTx "bb" 10 40 0 1 1]

/-- One oversized transaction (weight above the hard-coded
`4000000 * 8` resolution cap) carrying a stale nonzero
`effectiveFeePerVsize` that differs from its `feePerVsize`. -/
def exStaleEff : List Tx := [baseTx "t1" 10 40000000 10000000 1 5]

/-- One oversized transaction with an unset (zero)
`effectiveFeePerVsize`. -/
def exUnsetEff : List Tx := [baseTx "t1" 10 40000000 10000000 3 0]

/-- Small two-transaction mempool with a CPFP dependency. -/
def exSmallPool : List Tx :=
  [baseTx "aa" 100 400 100 1 0, { baseTx "bb" 2000 400 100 20 0 with vin := ["aa"] }]

/-- Stripped records for delta examples. -/
def stripA5 : TransactionStripped := ⟨"aa", 1, 1, some 5⟩

/-- Same txid as `stripA5` with a different rate. -/
def stripA7 : TransactionStripped := ⟨"aa", 1, 1, some 7⟩

/-- Record only present in the previous block. -/
def stripB3 : TransactionStripped := ⟨"bb", 2, 1, some 3⟩

/-- Record only present in the new block, with an absent rate. -/
def stripCN : TransactionStripped := ⟨"cc", 2, 1, none⟩

/-- Block wrapper around a list of stripped transactions. -/
def blockOf (l : List TransactionStripped) : MempoolBlockWithTransactions :=
  ⟨0, 0, l.length, 0, 0, [], l.map TransactionStripped.txid, l⟩

/-- Previous projection for the delta examples. -/
def prevBlocksEx : List MempoolBlockWithTransactions := [blockOf [stripA5, stripB3]]

/-- New projection for the delta examples. -/
def newBlocksEx : List MempoolBlockWithTransactions := [blockOf [stripA7, stripCN]]

/-! ## Lemmas about the retained-transactions scan -/

/-- running totals of the scan: the middle component is the weight sum. -/
lemma fitScan_foldl_weight (cfg : Config) :
    ∀ (txs : List Tx) (acc : ℕ × ℕ × List Tx),
      (txs.foldl (fitStep cfg) acc).2.1 = acc.2.1 + sumW txs := by
  intro txs
  induction txs with
  | nil => intro acc; simp [sumW]
  | cons t ts ih =>
    intro acc
    simp only [List.foldl_cons, ih, fitStep, sumW, List.map_cons, List.sum_cons]
    ring

/-- characterization of the retained subset as a filter over inclusive
prefix weights. -/
lemma fitScan_foldl_fit (cfg : Config) :
    ∀ (txs : List Tx) (acc : ℕ × ℕ × List Tx),
      (txs.foldl (fitStep cfg) acc).2.2
        = acc.2.2 ++ ((inclPrefixW acc.2.1 txs).filter
            (fun p => decide (((p.1 + p.2.weight : ℕ) : ℚ)
              ≤ (cfg.BLOCK_WEIGHT_UNITS : ℚ) * (6 / 5)))).map Prod.snd := by
  intro txs
  induction txs with
  | nil => intro acc; simp [inclPrefixW]
  | cons t ts ih =>
    intro acc
    simp only [List.foldl_cons, inclPrefixW, List.filter_cons]
    rw [ih]
    by_cases hc : ((acc.2.1 : ℚ) + (t.weight : ℚ) + (t.weight : ℚ))
        ≤ (cfg.BLOCK_WEIGHT_UNITS : ℚ) * (6 / 5)
    · simp [fitStep, hc, List.append_assoc]
    · simp [fitStep, hc]

/-- positional description of `inclPrefixW`: the annotation of the
transaction at index `i` is the weight sum of the first `i + 1`
transactions. -/
lemma inclPrefixW_get? :
    ∀ (txs : List Tx) (acc i : ℕ),
      (inclPrefixW acc txs).get? i
        = (txs.get? i).map (fun t => (acc + sumW (txs.take (i + 1)), t)) := by
  intro txs
  induction txs with
  | nil => intro acc i; simp [inclPrefixW]
  | cons t ts ih =>
    intro acc i
    cases i with
    | zero => simp [inclPrefixW, sumW]
    | succ n =>
      simp only [inclPrefixW, List.get?_cons_succ, ih, List.take_succ_cons, sumW,
        List.map_cons, List.sum_cons]
      cases ts.get? n <;> simp [Nat.add_assoc]

/-- every transaction the scan retains satisfies the doubled-weight
bound. -/
lemma fit_mem_bound (cfg : Config) :
    ∀ (txs : List Tx) (acc : ℕ × ℕ × List Tx) (t : Tx),
      t ∈ (txs.foldl (fitStep cfg) acc).2.2 →
      t ∈ acc.2.2 ∨ ((2 * t.weight : ℕ) : ℚ) ≤ (cfg.BLOCK_WEIGHT_UNITS : ℚ) * (6 / 5) := by
  intro txs
  induction txs with
  | nil => intro acc t ht; exact Or.inl ht
  | cons s ts ih =>
    intro acc t ht
    rcases ih (fitStep cfg acc s) t ht with hmem | hb
    · by_cases hc : ((acc.2.1 + s.weight + s.weight : ℕ) : ℚ)
          ≤ (cfg.BLOCK_WEIGHT_UNITS : ℚ) * (6 / 5)
      · simp only [fitStep, hc, if_pos] at hmem
        rcases List.mem_append.1 hmem with h | h
        · exact Or.inl h
        · right
          rcases List.mem_singleton.1 h with rfl
          have : ((2 * t.weight : ℕ) : ℚ) ≤ ((acc.2.1 + t.weight + t.weight : ℕ) : ℚ) := by
            push_cast
            have : (0 : ℚ) ≤ (acc.2.1 : ℚ) := by positivity
            linarith
          linarith
      · simp only [fitStep, hc, if_neg, not_false_iff] at hmem
        exact Or.inl hmem
    · exact Or.inr hb

/-- C3 (claim theorem): in `dataToMempoolBlocks`, the transaction at
position `i` of the packing order is retained for client delivery if
and only if `W_i + weight_i ≤ 1.2 × BLOCK_WEIGHT_UNITS`, where `W_i`
is the running weight including the current transaction — the retained
list is exactly the filter of the input under that rule (in order),
and the annotation `W_i` attached at index `i` is the weight sum of
transactions `0 … i` inclusive. -/
theorem c3_relaxed_cap_rule (cfg : Config) (transactions : List Tx) :
    (dataToMempoolBlocks cfg transactions).transactions
      = ((inclPrefixW 0 transactions).filter
          (fun p => decide (((p.1 + p.2.weight : ℕ) : ℚ)
            ≤ (cfg.BLOCK_WEIGHT_UNITS : ℚ) * (6 / 5)))).map
          (fun p => stripTransaction p.2) ∧
    ∀ i : ℕ, (inclPrefixW 0 transactions).get? i
      = (transactions.get? i).map (fun t => (sumW (transactions.take (i + 1)), t)) := by
  constructor
  · have h := fitScan_foldl_fit cfg transactions (0, 0, [])
    simp only [dataToMempoolBlocks, fitTransactions, fitScan] at *
    rw [h]
    simp [List.map_map]
  · intro i
    have h := inclPrefixW_get? transactions 0 i
    simpa using h

/-- C10 (claim theorem): because the running `totalWeight` already
contains the current transaction when the check adds its weight again,
no transaction heavier than `0.6 × BLOCK_WEIGHT_UNITS` is ever
retained for client delivery; in particular a block formed from a
single such transaction reports `nTx = 1` and a non-empty
`transactionIds` but an empty `transactions` array. -/
theorem c10_double_count_rule :
    (∀ (cfg : Config) (transactions : List Tx),
       ∀ t ∈ fitTransactions cfg transactions,
         (t.weight : ℚ) ≤ (cfg.BLOCK_WEIGHT_UNITS : ℚ) * (3 / 5)) ∧
    (∀ (cfg : Config) (tx : Tx),
       (cfg.BLOCK_WEIGHT_UNITS : ℚ) * (3 / 5) < (tx.weight : ℚ) →
         (dataToMempoolBlocks cfg [tx]).nTx = 1 ∧
         (dataToMempoolBlocks cfg [tx]).transactionIds = [tx.txid] ∧
         (dataToMempoolBlocks cfg [tx]).transactions = []) := by
  constructor
  · intro cfg transactions t ht
    rcases fit_mem_bound cfg transactions (0, 0, []) t ht with h | h
    · simp at h
    · push_cast at h
      linarith
  · intro cfg tx hw
    have hc : ¬ ((tx.weight : ℚ) + (tx.weight : ℚ)
        ≤ (cfg.BLOCK_WEIGHT_UNITS : ℚ) * (6 / 5)) := by
      push_neg
      linarith
    refine ⟨rfl, rfl, ?_⟩
    simp only [dataToMempoolBlocks, fitTransactions, fitScan, List.foldl_cons,
      List.foldl_nil, fitStep]
    simp [hc]

/-- C10 witness at a concrete input. -/
theorem c10_double_count_witness :
    ((baseTx "aa" 10 100 25 1 1).weight : ℚ)
        ≤ (defaultConfig.BLOCK_WEIGHT_UNITS : ℚ) * (3 / 5) ∧
    (dataToMempoolBlocks defaultConfig [baseTx "aa" 10 2500000 625000 1 1]).nTx = 1 ∧
    (dataToMempoolBlocks defaultConfig [baseTx "aa" 10 2500000 625000 1 1]).transactionIds
        = ["aa"] ∧
    (dataToMempoolBlocks defaultConfig [baseTx "aa" 10 2500000 625000 1 1]).transactions
        = [] := by
  refine ⟨?_, ?_⟩
  · exact c10_double_count_rule.1 defaultConfig [baseTx "aa" 10 100 25 1 1]
      (baseTx "aa" 10 100 25 1 1) (by with_unfolding_all decide)
  · exact c10_double_count_rule.2 defaultConfig (baseTx "aa" 10 2500000 625000 1 1)
      (by with_unfolding_all decide)

/-- C9 (claim theorem): with `saveResults = true` a call to
`updateMempoolBlocks` (or `processBlockTemplates`) replaces both
stored fields in the same call — the stored blocks become the call's
result and the stored deltas are the diff of the previously stored
blocks against that result — while with `saveResults = false` the
stored state is untouched and the read accessors still serve the
previous snapshot. -/
theorem c9_snapshot_frame_rule (cfg : Config) (s : SavedState) (memPool : List Tx)
    (blocks : List (List ThreadTransaction)) (clusters : List (String × List String)) :
    (getMempoolBlocksWithTransactions (updateMempoolBlocks cfg s memPool true).1
        = (updateMempoolBlocks cfg s memPool true).2 ∧
      getMempoolBlockDeltas (updateMempoolBlocks cfg s memPool true).1
        = calculateMempoolDeltas (getMempoolBlocksWithTransactions s)
            (updateMempoolBlocks cfg s memPool true).2) ∧
    (updateMempoolBlocks cfg s memPool false).1 = s ∧
    (getMempoolBlocksWithTransactions
          (processBlockTemplates cfg s memPool blocks clusters true).1
        = (processBlockTemplates cfg s memPool blocks clusters true).2.2 ∧
      getMempoolBlockDeltas (processBlockTemplates cfg s memPool blocks clusters true).1
        = calculateMempoolDeltas (getMempoolBlocksWithTransactions s)
            (processBlockTemplates cfg s memPool blocks clusters true).2.2) ∧
    (processBlockTemplates cfg s memPool blocks clusters false).1 = s := by
  simp [updateMempoolBlocks, processBlockTemplates,
    getMempoolBlocksWithTransactions, getMempoolBlockDeltas]

/-! ## Lemmas about the packing loop -/

/-- the number of finalized groups never reaches
`MEMPOOL_BLOCKS_AMOUNT` when the limit is positive. -/
lemma packFoldl_groups_length (cfg : Config) :
    ∀ (txs : List Tx) (st : PackState),
      (st.groups.length : ℤ) ≤ (cfg.MEMPOOL_BLOCKS_AMOUNT : ℤ) - 1 →
      ((txs.foldl (packStep cfg) st).groups.length : ℤ)
        ≤ (cfg.MEMPOOL_BLOCKS_AMOUNT : ℤ) - 1 := by
  intro txs
  induction txs with
  | nil => intro st h; simpa using h
  | cons t ts ih =>
    intro st h
    simp only [List.foldl_cons]
    apply ih
    unfold packStep
    split
    · exact h
    · rename_i hcond
      simp only [not_or] at hcond
      simp only [List.length_append, List.length_singleton]
      push_cast
      omega

/-- C7 (claim theorem): provided `MEMPOOL_BLOCKS_AMOUNT ≥ 1`,
`calculateMempoolBlocks` returns at most `MEMPOOL_BLOCKS_AMOUNT`
blocks. -/
theorem c7_block_count_rule (cfg : Config) (transactionsSorted : List Tx)
    (h1 : 1 ≤ cfg.MEMPOOL_BLOCKS_AMOUNT) :
    (calculateMempoolBlocks cfg transactionsSorted).length
      ≤ cfg.MEMPOOL_BLOCKS_AMOUNT := by
  have hbase : (((⟨[], 0, 0, []⟩ : PackState).groups.length : ℤ))
      ≤ (cfg.MEMPOOL_BLOCKS_AMOUNT : ℤ) - 1 := by
    simp
    omega
  have h := packFoldl_groups_length cfg transactionsSorted ⟨[], 0, 0, []⟩ hbase
  simp only [calculateMempoolBlocks, List.length_map, packGroups, packFinish]
  split
  · simp only [List.length_append, List.length_singleton]
    omega
  · omega

/-- C7 witness at a concrete input. -/
theorem c7_block_count_witness :
    (1 ≤ defaultConfig.MEMPOOL_BLOCKS_AMOUNT) ∧
    (calculateMempoolBlocks defaultConfig exOverweight).length
      ≤ defaultConfig.MEMPOOL_BLOCKS_AMOUNT :=
  ⟨by decide,
   c7_block_count_rule defaultConfig exOverweight (by decide)⟩

/-- weight bookkeeping of the packing loop: all finalized groups stay
within the cap when every transaction fits in an empty block, the
running `blockWeight` is the weight of the open group, and the open
group can only exceed the cap in the last permitted block. -/
lemma packFoldl_weight_inv (cfg : Config) :
    ∀ (txs : List Tx) (st : PackState),
      (∀ t ∈ txs, t.weight ≤ cfg.BLOCK_WEIGHT_UNITS) →
      (∀ g ∈ st.groups, sumW g ≤ cfg.BLOCK_WEIGHT_UNITS) →
      st.blockWeight = sumW st.transactions →
      (st.blockWeight ≤ cfg.BLOCK_WEIGHT_UNITS
        ∨ (st.groups.length : ℤ) = (cfg.MEMPOOL_BLOCKS_AMOUNT : ℤ) - 1) →
      (∀ g ∈ (txs.foldl (packStep cfg) st).groups, sumW g ≤ cfg.BLOCK_WEIGHT_UNITS) ∧
      (txs.foldl (packStep cfg) st).blockWeight
        = sumW (txs.foldl (packStep cfg) st).transactions ∧
      ((txs.foldl (packStep cfg) st).blockWeight ≤ cfg.BLOCK_WEIGHT_UNITS
        ∨ ((txs.foldl (packStep cfg) st).groups.length : ℤ)
            = (cfg.MEMPOOL_BLOCKS_AMOUNT : ℤ) - 1) := by
  intro txs
  induction txs with
  | nil => intro st _ hg hbw hcur; exact ⟨hg, hbw, hcur⟩
  | cons t ts ih =>
    intro st hw hg hbw hcur
    simp only [List.foldl_cons]
    have hwt : t.weight ≤ cfg.BLOCK_WEIGHT_UNITS := hw t (List.mem_cons_self t ts)
    have hw' : ∀ u ∈ ts, u.weight ≤ cfg.BLOCK_WEIGHT_UNITS :=
      fun u hu => hw u (List.mem_cons_of_mem t hu)
    unfold packStep
    split
    · rename_i hcond
      apply ih _ hw'
      · exact hg
      · simp only [sumW, List.map_append, List.sum_append, List.map_cons,
          List.sum_cons, List.map_nil, List.sum_nil]
        simp [sumW] at hbw
        omega
      · rcases hcond with hcond | hcond
        · exact Or.inl hcond
        · exact Or.inr hcond
    · rename_i hcond
      simp only [not_or] at hcond
      apply ih _ hw'
      · intro g hgmem
        rcases List.mem_append.1 hgmem with h | h
        · exact hg g h
        · rcases List.mem_singleton.1 h with rfl
          rcases hcur with h | h
          · omega
          · exact absurd h hcond.2
      · simp [sumW]
      · exact Or.inl hwt

/-- C2 (amended claim theorem): when every transaction weighs at most
`BLOCK_WEIGHT_UNITS`, every raw block `calculateMempoolBlocks`
assembles, except possibly the last, has total transaction weight at
most `BLOCK_WEIGHT_UNITS`. -/
theorem c2_nonfinal_weight_amended (cfg : Config) (transactionsSorted : List Tx)
    (hw : ∀ t ∈ transactionsSorted, t.weight ≤ cfg.BLOCK_WEIGHT_UNITS)
    (i : ℕ) (g : List Tx)
    (h : i + 1 < (packGroups cfg transactionsSorted).length)
    (hg : (packGroups cfg transactionsSorted).get? i = some g) :
    sumW g ≤ cfg.BLOCK_WEIGHT_UNITS := by
  have inv := packFoldl_weight_inv cfg transactionsSorted ⟨[], 0, 0, []⟩ hw
    (by intro g hgm; simp at hgm) (by simp [sumW]) (Or.inl (Nat.zero_le _))
  simp only [packGroups, packFinish] at h hg
  by_cases hc : (List.foldl (packStep cfg) ⟨[], 0, 0, []⟩ transactionsSorted).transactions.length ≠ 0
  · rw [if_pos hc] at h hg
    simp only [List.length_append, List.length_singleton] at h
    have hlt : i < (List.foldl (packStep cfg) ⟨[], 0, 0, []⟩ transactionsSorted).groups.length := by
      omega
    rw [List.get?_eq_getElem?, List.getElem?_append_left hlt, ← List.get?_eq_getElem?] at hg
    exact inv.1 g (List.get?_mem hg)
  · rw [if_neg hc] at hg
    exact inv.1 g (List.get?_mem hg)

/-- C2 counterexample: with a first transaction heavier than
`BLOCK_WEIGHT_UNITS` followed by a light one, the packer emits three
blocks and the middle one weighs `5000000 > 4000000`, refuting the
unconditional claim at this input. -/
theorem c2_nonfinal_weight_counterexample :
    ¬ (∀ i g, i + 1 < (packGroups defaultConfig exOverweight).length →
        (packGroups defaultConfig exOverweight).get? i = some g →
        sumW g ≤ defaultConfig.BLOCK_WEIGHT_UNITS) := by
  intro h
  have h1 := h 1 ((packGroups defaultConfig exOverweight).getD 1 [])
    (by with_unfolding_all decide) (by with_unfolding_all rfl)
  exact absurd h1 (by with_unfolding_all decide)

/-- C2 witness at a concrete input. -/
theorem c2_nonfinal_weight_witness :
    sumW ((packGroups defaultConfig exModerate).getD 0 [])
      ≤ defaultConfig.BLOCK_WEIGHT_UNITS :=
  c2_nonfinal_weight_amended defaultConfig exModerate
    (by with_unfolding_all decide) 0
    ((packGroups defaultConfig exModerate).getD 0 [])
    (by with_unfolding_all decide) (by with_unfolding_all rfl)

/-- Specification of positions inside the assembled block of index
`b`: each transaction's `position` holds the block index and the vsize
sum of its predecessors within the block plus half its own vsize. -/
def PosOk (b : ℕ) (g : List Tx) : Prop :=
  ∀ k : ℕ, ∀ t ∈ g[k]?, t.position = some ⟨b, sumV (g.take k) + t.vsize / 2⟩

/-- replacing the position leaves the position-erased record
unchanged. -/
lemma erasePos_withPos (t : Tx) (p : Option TxPosition) :
    erasePos { t with position := p } = erasePos t := rfl


/-- indexing a list extended by one element. -/
lemma getElem?_append_singleton {α : Type} (l : List α) (x : α) (k : ℕ) :
    (l ++ [x])[k]? = if k < l.length then l[k]?
      else if k = l.length then some x else none := by
  rcases Nat.lt_trichotomy k l.length with h | h | h
  · rw [List.getElem?_append_left h, if_pos h]
  · subst h
    rw [List.getElem?_append_right (Nat.le_refl _)]
    simp
  · rw [List.getElem?_append_right (Nat.le_of_lt h), if_neg (by omega), if_neg (by omega)]
    rw [List.getElem?_eq_none]
    simp only [List.length_singleton]
    omega

/-- reading `posV` off an assigned position. -/
lemma posV_some (t : Tx) (b : ℕ) (v : ℚ) (h : t.position = some ⟨b, v⟩) :
    posV t = v := by
  simp [posV, h]

/-- position bookkeeping of the packing loop. -/
lemma packFoldl_pos_inv (cfg : Config) :
    ∀ (txs : List Tx) (st : PackState),
      (∀ b g, st.groups[b]? = some g → PosOk b g) →
      PosOk st.groups.length st.transactions →
      st.blockVsize = sumV st.transactions →
      (∀ b g, (txs.foldl (packStep cfg) st).groups[b]? = some g → PosOk b g) ∧
      PosOk (txs.foldl (packStep cfg) st).groups.length
        (txs.foldl (packStep cfg) st).transactions ∧
      (txs.foldl (packStep cfg) st).blockVsize
        = sumV (txs.foldl (packStep cfg) st).transactions := by
  intro txs
  induction txs with
  | nil => intro st hg hcur hbv; exact ⟨hg, hcur, hbv⟩
  | cons t ts ih =>
    intro st hg hcur hbv
    simp only [List.foldl_cons]
    unfold packStep
    split
    · apply ih
      · exact hg
      · intro k u hu
        rw [getElem?_append_singleton] at hu
        split at hu
        · rename_i hk
          rw [List.take_append_of_le_length (Nat.le_of_lt hk)]
          exact hcur k u hu
        · split at hu
          · rename_i hk1 hk2
            rw [Option.mem_some_iff] at hu
            subst hu
            subst hk2
            rw [List.take_append_of_le_length (Nat.le_refl _), List.take_length]
            simp [hbv]
          · exact absurd hu (by simp)
      · simp only [sumV, List.map_append, List.sum_append, List.map_cons,
          List.sum_cons, List.map_nil, List.sum_nil]
        rw [hbv]
        simp [sumV]
    · apply ih
      · intro b g hbg
        rw [getElem?_append_singleton] at hbg
        split at hbg
        · exact hg b g hbg
        · split at hbg
          · rename_i hb1 hb2
            rw [Option.some_inj] at hbg
            subst hb2
            rw [← hbg]
            exact hcur
          · exact absurd hbg (by simp)
      · intro k u hu
        cases k with
        | zero =>
          simp only [List.getElem?_cons_zero, Option.mem_some_iff] at hu
          subst hu
          simp only [List.length_append, List.length_singleton, List.take_zero]
          simp [sumV]
        | succ n =>
          simp only [List.getElem?_cons_succ, List.getElem?_nil] at hu
          exact absurd hu (by simp)
      · simp [sumV]

/-- the records packed into groups are the input records with only the
`position` field rewritten, in order. -/
lemma packFoldl_flatten (cfg : Config) :
    ∀ (txs : List Tx) (st : PackState),
      ((txs.foldl (packStep cfg) st).groups.flatten
          ++ (txs.foldl (packStep cfg) st).transactions).map erasePos
        = (st.groups.flatten ++ st.transactions).map erasePos ++ txs.map erasePos := by
  intro txs
  induction txs with
  | nil => intro st; simp
  | cons t ts ih =>
    intro st
    simp only [List.foldl_cons, List.map_cons]
    rw [ih]
    unfold packStep
    split
    · simp [erasePos_withPos, List.append_assoc]
    · simp [erasePos_withPos, List.flatten_append, List.append_assoc]

/-- flattened groups of `packGroups` are the inputs with only
`position` rewritten. -/
lemma flatten_packGroups (cfg : Config) (txs : List Tx) :
    (packGroups cfg txs).flatten.map erasePos = txs.map erasePos := by
  have h := packFoldl_flatten cfg txs ⟨[], 0, 0, []⟩
  simp only [List.flatten_nil, List.nil_append, List.map_nil] at h
  simp only [packGroups, packFinish]
  split
  · simpa [List.flatten_append] using h
  · rename_i hc
    simp only [ne_eq, not_not, List.length_eq_zero] at hc
    rw [hc] at h
    simpa using h

/-- every transaction of a packed group is an input transaction up to
its `position` field. -/
lemma packGroups_mem (cfg : Config) (txs : List Tx) (g : List Tx) (t : Tx)
    (hgm : g ∈ packGroups cfg txs) (ht : t ∈ g) :
    ∃ s ∈ txs, erasePos s = erasePos t := by
  have hmem : t ∈ (packGroups cfg txs).flatten := List.mem_flatten.2 ⟨g, hgm, ht⟩
  have : erasePos t ∈ txs.map erasePos := by
    rw [← flatten_packGroups cfg txs]
    exact List.mem_map_of_mem erasePos hmem
  rcases List.mem_map.1 this with ⟨s, hs, hse⟩
  exact ⟨s, hs, hse⟩

/-- strict growth of the mid-point positions inside a block with
positive vsizes. -/
lemma posOk_chain (b : ℕ) (g : List Tx) (hp : PosOk b g)
    (hv : ∀ t ∈ g, 0 < t.vsize) :
    List.Chain' (· < ·) (g.map posV) := by
  rw [List.chain'_iff_get]
  intro i hlen
  simp only [List.length_map] at hlen
  have hi : i < g.length := by omega
  have hi1 : i + 1 < g.length := by omega
  have h0 := hp i (g.get ⟨i, hi⟩) (by simp [List.getElem?_eq_getElem hi])
  have h1 := hp (i + 1) (g.get ⟨i + 1, hi1⟩) (by simp [List.getElem?_eq_getElem hi1])
  have hsum : sumV (g.take (i + 1)) = sumV (g.take i) + (g.get ⟨i, hi⟩).vsize := by
    simp only [sumV, List.map_take]
    rw [List.sum_take_succ (g.map Tx.vsize) i (by simpa using hi)]
    simp
  have hv0 : 0 < (g.get ⟨i, hi⟩).vsize := hv _ (List.get_mem g i hi)
  have hv1 : 0 < (g.get ⟨i + 1, hi1⟩).vsize := hv _ (List.get_mem g (i + 1) hi1)
  simp only [List.get_eq_getElem, List.getElem_map]
  rw [posV_some _ _ _ (by exact h0), posV_some _ _ _ (by exact h1)]
  rw [hsum]
  linarith

/-- C4 (amended claim theorem): every block `calculateMempoolBlocks`
assembles satisfies the mid-point rule — each transaction's
`position` equals the block's index paired with the vsize sum of the
transactions before it in the block plus half its own vsize — and,
provided every input transaction has positive vsize, the
`position.vsize` values are strictly increasing in packing order. -/
theorem c4_position_rule (cfg : Config) (transactionsSorted : List Tx)
    (b : ℕ) (g : List Tx)
    (hg : (packGroups cfg transactionsSorted)[b]? = some g) :
    PosOk b g ∧
    ((∀ t ∈ transactionsSorted, 0 < t.vsize) →
      List.Chain' (· < ·) (g.map posV)) := by
  have inv := packFoldl_pos_inv cfg transactionsSorted ⟨[], 0, 0, []⟩
    (by intro b g h; simp at h) (by intro k u hu; simp at hu) (by simp [sumV])
  have hgm : g ∈ packGroups cfg transactionsSorted := by
    have hlt := List.getElem?_eq_some_iff.1 hg
    rcases hlt with ⟨hlen, hval⟩
    rw [← hval]
    exact List.getElem_mem hlen
  have hpos : PosOk b g := by
    revert hg
    simp only [packGroups, packFinish]
    split
    · rw [getElem?_append_singleton]
      split
      · intro hg
        exact inv.1 b g hg
      · split
        · rename_i hb1 hb2
          intro hg
          rw [Option.some_inj] at hg
          subst hb2
          rw [← hg]
          exact inv.2.1
        · intro hg
          exact absurd hg (by simp)
    · intro hg
      exact inv.1 b g hg
  refine ⟨hpos, fun hv => posOk_chain b g hpos ?_⟩
  intro t ht
  rcases packGroups_mem cfg transactionsSorted g t hgm ht with ⟨s, hs, hse⟩
  have h2 := congrArg Tx.vsize hse
  simp only [erasePos] at h2
  rw [← h2]
  exact hv s hs

/-- C4 counterexample: two transactions of vsize `0` land in one block
with equal `position.vsize` values, so the positions are not strictly
increasing at this input. -/
theorem c4_position_counterexample :
    ¬ ∀ g ∈ packGroups defaultConfig exZeroVsize,
        List.Chain' (· < ·) (g.map posV) := by
  intro h
  have h0 := h ((packGroups defaultConfig exZeroVsize).getD 0 [])
    (by with_unfolding_all decide)
  have hm : ((packGroups defaultConfig exZeroVsize).getD 0 []).map posV
      = [0, 0] := by
    with_unfolding_all rfl
  rw [hm] at h0
  simp at h0

/-- C4 witness at a concrete input. -/
theorem c4_position_witness :
    PosOk 0 ((packGroups defaultConfig exModerate).getD 0 []) ∧
    List.Chain' (· < ·)
      (((packGroups defaultConfig exModerate).getD 0 []).map posV) := by
  have h := c4_position_rule defaultConfig exModerate 0
    ((packGroups defaultConfig exModerate).getD 0 []) (by with_unfolding_all rfl)
  exact ⟨h.1, h.2 (by with_unfolding_all decide)⟩

/-! ## Lemmas about the delta computer -/

/-- appending one record to the scanned list: the later entry wins. -/
lemma objLookup_append (txs : List TransactionStripped) (t : TransactionStripped)
    (k : String) :
    objLookup (txs ++ [t]) k = if t.txid = k then some t else objLookup txs k := by
  simp [objLookup, List.foldl_append]

/-- a lookup succeeds exactly for present txids. -/
lemma objLookup_isSome (txs : List TransactionStripped) (k : String) :
    (objLookup txs k).isSome = true ↔ k ∈ txs.map TransactionStripped.txid := by
  induction txs using List.reverseRecOn with
  | nil => simp [objLookup]
  | append_singleton l t ihl =>
    rw [objLookup_append]
    by_cases h : t.txid = k
    · simp [h]
    · rw [if_neg h]
      simp only [List.map_append, List.mem_append, List.map_cons, List.map_nil,
        List.mem_singleton, ihl]
      constructor
      · exact Or.inl
      · rintro (hh | hh)
        · exact hh
        · exact absurd hh.symm h

/-- under distinct txids the object lookup agrees with the first
match. -/
lemma objLookup_eq_find? (txs : List TransactionStripped)
    (h : (txs.map TransactionStripped.txid).Nodup) (k : String) :
    objLookup txs k = txs.find? (fun p => p.txid == k) := by
  induction txs using List.reverseRecOn with
  | nil => simp [objLookup]
  | append_singleton l t ihl =>
    simp only [List.map_append, List.map_cons, List.map_nil] at h
    rw [List.nodup_append] at h
    have hnd : (l.map TransactionStripped.txid).Nodup := h.1
    have hnin : t.txid ∉ l.map TransactionStripped.txid := by
      intro hmem
      exact h.2.2 hmem (List.mem_singleton_self _)
    rw [objLookup_append, List.find?_append, ihl hnd]
    by_cases ht : t.txid = k
    · have hfl : l.find? (fun p => p.txid == k) = none := by
        rw [List.find?_eq_none]
        intro x hx hbx
        rw [beq_iff_eq] at hbx
        exact hnin (by rw [ht, ← hbx]; exact List.mem_map_of_mem _ hx)
      simp [hfl, ht, List.find?_cons]
    · rw [if_neg ht]
      have hft : List.find? (fun p => p.txid == k) [t] = none := by
        rw [List.find?_eq_none]
        intro x hx hbx
        rw [List.mem_singleton] at hx
        subst hx
        rw [beq_iff_eq] at hbx
        exact ht hbx
      rw [hft, Option.or_none]

/-- the removed scan as a filter. -/
lemma removed_foldl (nbts : List TransactionStripped) :
    ∀ (l : List TransactionStripped) (acc : List String),
      l.foldl (fun acc t =>
          if (objLookup nbts t.txid).isSome then acc else acc ++ [t.txid]) acc
        = acc ++ (l.filter (fun t => (objLookup nbts t.txid).isNone)).map
            TransactionStripped.txid := by
  intro l
  induction l with
  | nil => intro acc; simp
  | cons t ts ih =>
    intro acc
    simp only [List.foldl_cons, List.filter_cons]
    cases hq : objLookup nbts t.txid with
    | some v => simp [hq, ih]
    | none => simp [hq, ih]

/-- the combined added/changed scan as a filter and a filterMap. -/
lemma addedChanged_foldl (pbts : List TransactionStripped) :
    ∀ (l : List TransactionStripped) (a : List TransactionStripped)
      (c : List ChangedEntry),
      l.foldl (fun (acc : List TransactionStripped × List ChangedEntry) t =>
          match objLookup pbts t.txid with
          | none => (acc.1 ++ [t], acc.2)
          | some p => if t.rate ≠ p.rate then (acc.1, acc.2 ++ [⟨t.txid, t.rate⟩])
              else acc) (a, c)
        = (a ++ l.filter (fun t => (objLookup pbts t.txid).isNone),
           c ++ l.filterMap (fun t =>
             match objLookup pbts t.txid with
             | some p => if t.rate ≠ p.rate then some ⟨t.txid, t.rate⟩ else none
             | none => none)) := by
  intro l
  induction l with
  | nil => intro a c; simp
  | cons t ts ih =>
    intro a c
    simp only [List.foldl_cons]
    cases hq : objLookup pbts t.txid with
    | none =>
      simp only [hq]
      rw [ih]
      simp [hq, List.filter_cons, List.filterMap_cons, List.append_assoc]
    | some p =>
      simp only [hq]
      by_cases hr : t.rate = p.rate
      · rw [if_neg (by simp [hr])]
        rw [ih]
        simp [hq, hr, List.filter_cons, List.filterMap_cons]
      · rw [if_pos hr]
        rw [ih]
        simp [hq, hr, List.filter_cons, List.filterMap_cons, List.append_assoc]

/-- both-blocks case of the delta in specification form (the lookup
forms, no txid-uniqueness needed). -/
lemma deltaBoth_spec (pb nb : MempoolBlockWithTransactions) :
    (deltaBoth pb nb).removed
      = (pb.transactions.filter
          (fun t => (objLookup nb.transactions t.txid).isNone)).map
          TransactionStripped.txid ∧
    (deltaBoth pb nb).added
      = nb.transactions.filter (fun t => (objLookup pb.transactions t.txid).isNone) ∧
    (deltaBoth pb nb).changed
      = nb.transactions.filterMap (fun t =>
          match objLookup pb.transactions t.txid with
          | some p => if t.rate ≠ p.rate then some ⟨t.txid, t.rate⟩ else none
          | none => none) := by
  simp only [deltaBoth]
  rw [removed_foldl, addedChanged_foldl]
  simp

/-- length of the delta sequence. -/
lemma calculateMempoolDeltas_length
    (prevBlocks mempoolBlocks : List MempoolBlockWithTransactions) :
    (calculateMempoolDeltas prevBlocks mempoolBlocks).length
      = max mempoolBlocks.length prevBlocks.length := by
  simp [calculateMempoolDeltas]

/-- the delta at an index where both blocks exist. -/
lemma calculateMempoolDeltas_getElem
    (prevBlocks mempoolBlocks : List MempoolBlockWithTransactions)
    (i : ℕ) (pb nb : MempoolBlockWithTransactions)
    (hp : prevBlocks[i]? = some pb) (hn : mempoolBlocks[i]? = some nb) :
    (calculateMempoolDeltas prevBlocks mempoolBlocks)[i]? = some (deltaBoth pb nb) := by
  have hpl : i < prevBlocks.length := (List.getElem?_eq_some_iff.1 hp).1
  have hnl : i < mempoolBlocks.length := (List.getElem?_eq_some_iff.1 hn).1
  have hi : i < max mempoolBlocks.length prevBlocks.length := by omega
  simp only [calculateMempoolDeltas, List.getElem?_map, List.getElem?_range hi,
    Option.map_some']
  rw [List.get?_eq_getElem?, List.get?_eq_getElem?, hp, hn]

/-- a lookup is empty exactly for absent txids. -/
lemma objLookup_isNone (txs : List TransactionStripped) (k : String) :
    (objLookup txs k).isNone = decide (k ∉ txs.map TransactionStripped.txid) := by
  cases ho : objLookup txs k with
  | none =>
    have hnm : k ∉ txs.map TransactionStripped.txid := by
      rw [← objLookup_isSome txs k, ho]
      simp
    simp [hnm]
  | some v =>
    have hm : k ∈ txs.map TransactionStripped.txid := by
      rw [← objLookup_isSome txs k, ho]
      simp
    simp [hm]

/-- membership of the filtered-by-absence txid list. -/
lemma mem_filter_map_txid (l lref : List TransactionStripped) (a : String) :
    (a ∈ (l.filter (fun t => (objLookup lref t.txid).isNone)).map
        TransactionStripped.txid)
      ↔ (a ∈ l.map TransactionStripped.txid
          ∧ a ∉ lref.map TransactionStripped.txid) := by
  simp only [List.mem_map, List.mem_filter]
  constructor
  · rintro ⟨t, ⟨ht, hcond⟩, rfl⟩
    refine ⟨⟨t, ht, rfl⟩, ?_⟩
    rw [objLookup_isNone] at hcond
    have hni := of_decide_eq_true hcond
    simpa [List.mem_map] using hni
  · rintro ⟨⟨t, ht, rfl⟩, hnin⟩
    refine ⟨t, ⟨ht, ?_⟩, rfl⟩
    rw [objLookup_isNone]
    apply decide_eq_true
    simpa [List.mem_map] using hnin

/-- C5 (claim theorem): `calculateMempoolDeltas` returns one delta per
index up to the longer input, and wherever both blocks exist (and the
previous block's txids are unique, as block contents are) the delta's
`removed` is exactly the txids of the previous block missing from the
new one, `added` is exactly the stripped records of the new block
missing from the previous one, and `changed` is exactly `{txid, rate}`
for the records present in both whose rates differ under strict
inequality, an absent rate differing from any present one. -/
theorem c5_delta_per_index_rule
    (prevBlocks newBlocks : List MempoolBlockWithTransactions) :
    (calculateMempoolDeltas prevBlocks newBlocks).length
      = max prevBlocks.length newBlocks.length ∧
    ∀ (i : ℕ) (pb nb : MempoolBlockWithTransactions) (d : MempoolBlockDelta),
      prevBlocks[i]? = some pb → newBlocks[i]? = some nb →
      (calculateMempoolDeltas prevBlocks newBlocks)[i]? = some d →
      (pb.transactions.map TransactionStripped.txid).Nodup →
      d.removed = removedSpec pb nb ∧ d.added = addedSpec pb nb ∧
        d.changed = changedSpec pb nb := by
  constructor
  · rw [calculateMempoolDeltas_length, Nat.max_comm]
  · intro i pb nb d hp hn hd hnd
    rw [calculateMempoolDeltas_getElem prevBlocks newBlocks i pb nb hp hn,
      Option.some_inj] at hd
    subst hd
    obtain ⟨h1, h2, h3⟩ := deltaBoth_spec pb nb
    refine ⟨?_, ?_, ?_⟩
    · rw [h1, removedSpec]
      congr 1
      apply List.filter_congr
      intro t _
      rw [objLookup_isNone]
    · rw [h2, addedSpec]
      apply List.filter_congr
      intro t _
      rw [objLookup_isNone]
    · rw [h3, changedSpec]
      apply List.filterMap_congr
      intro t _
      rw [objLookup_eq_find? pb.transactions hnd]

/-- C5 witness at a concrete pair of projections. -/
theorem c5_delta_per_index_witness :
    ((calculateMempoolDeltas prevBlocksEx newBlocksEx).getD 0 ⟨[], [], []⟩).removed
        = removedSpec (blockOf [stripA5, stripB3]) (blockOf [stripA7, stripCN]) ∧
    ((calculateMempoolDeltas prevBlocksEx newBlocksEx).getD 0 ⟨[], [], []⟩).added
        = addedSpec (blockOf [stripA5, stripB3]) (blockOf [stripA7, stripCN]) ∧
    ((calculateMempoolDeltas prevBlocksEx newBlocksEx).getD 0 ⟨[], [], []⟩).changed
        = changedSpec (blockOf [stripA5, stripB3]) (blockOf [stripA7, stripCN]) :=
  (c5_delta_per_index_rule prevBlocksEx newBlocksEx).2 0
    (blockOf [stripA5, stripB3]) (blockOf [stripA7, stripCN])
    ((calculateMempoolDeltas prevBlocksEx newBlocksEx).getD 0 ⟨[], [], []⟩)
    (by with_unfolding_all rfl) (by with_unfolding_all rfl)
    (by with_unfolding_all rfl) (by with_unfolding_all decide)

/-- C6 (claim theorem): at every index where both blocks exist, taking
the txid set of the previous block, removing the delta's `removed`
txids and adding the txids of its `added` records yields exactly the
txid set of the new block. -/
theorem c6_delta_apply_rule
    (prevBlocks newBlocks : List MempoolBlockWithTransactions)
    (i : ℕ) (pb nb : MempoolBlockWithTransactions) (d : MempoolBlockDelta)
    (hp : prevBlocks[i]? = some pb) (hn : newBlocks[i]? = some nb)
    (hd : (calculateMempoolDeltas prevBlocks newBlocks)[i]? = some d) :
    ((pb.transactions.map TransactionStripped.txid).toFinset \ d.removed.toFinset)
        ∪ (d.added.map TransactionStripped.txid).toFinset
      = (nb.transactions.map TransactionStripped.txid).toFinset := by
  rw [calculateMempoolDeltas_getElem prevBlocks newBlocks i pb nb hp hn,
    Option.some_inj] at hd
  subst hd
  obtain ⟨h1, h2, _⟩ := deltaBoth_spec pb nb
  rw [h1, h2]
  ext a
  simp only [Finset.mem_union, Finset.mem_sdiff, List.mem_toFinset]
  rw [mem_filter_map_txid, mem_filter_map_txid]
  by_cases hpm : a ∈ pb.transactions.map TransactionStripped.txid <;>
    by_cases hnm : a ∈ nb.transactions.map TransactionStripped.txid <;>
      simp [hpm, hnm]

/-- C6 witness at a concrete pair of projections. -/
theorem c6_delta_apply_witness :
    (((blockOf [stripA5, stripB3]).transactions.map
          TransactionStripped.txid).toFinset \
        ((calculateMempoolDeltas prevBlocksEx newBlocksEx).getD 0
          ⟨[], [], []⟩).removed.toFinset)
      ∪ ((((calculateMempoolDeltas prevBlocksEx newBlocksEx).getD 0
          ⟨[], [], []⟩).added).map TransactionStripped.txid).toFinset
    = ((blockOf [stripA7, stripCN]).transactions.map
        TransactionStripped.txid).toFinset :=
  c6_delta_apply_rule prevBlocksEx newBlocksEx 0
    (blockOf [stripA5, stripB3]) (blockOf [stripA7, stripCN])
    ((calculateMempoolDeltas prevBlocksEx newBlocksEx).getD 0 ⟨[], [], []⟩)
    (by with_unfolding_all rfl) (by with_unfolding_all rfl)
    (by with_unfolding_all rfl)

/-! ## Lemmas about the CPFP resolution pass -/

/-- Projection of the fields the resolver never writes on any record:
txid and weight. -/
def resSkel (t : Tx) : String × ℕ := (t.txid, t.weight)

/-- elementwise description of `resolveApply`. -/
lemma resolveApply_get? (pivot : ℕ) (upd : Tx) (ancIds : List String)
    (cand : Ancestor) :
    ∀ (l : List Tx) (j k : ℕ),
      (resolveApply pivot upd ancIds cand j l)[k]?
        = (l[k]?).map (fun e =>
            if j + k = pivot then upd
            else if e.txid ∈ ancIds then
              { e with bestDescendant :=
                  match e.bestDescendant with
                  | none => some cand
                  | some old => if ancRate old < ancRate cand then some cand
                      else some old }
            else e) := by
  intro l
  induction l with
  | nil => intro j k; simp [resolveApply]
  | cons e es ih =>
    intro j k
    cases k with
    | zero => simp [resolveApply]
    | succ n =>
      simp only [resolveApply, List.getElem?_cons_succ]
      rw [ih (j + 1) n]
      cases es[n]? with
      | none => rfl
      | some v =>
        simp only [Option.map_some']
        have harith : j + 1 + n = j + (n + 1) := by omega
        rw [harith]

/-- the resolver never rewrites txid or weight of any record. -/
lemma setRel_map_resSkel (arr : List Tx) (i : ℕ) :
    (setRelativesAndGetCpfpInfo arr i).map resSkel = arr.map resSkel := by
  unfold setRelativesAndGetCpfpInfo
  cases harr : arr.get? i with
  | none => rfl
  | some tx =>
    apply List.ext_getElem?
    intro k
    simp only [List.getElem?_map]
    rw [resolveApply_get?]
    rw [List.get?_eq_getElem?] at harr
    cases hk : arr[k]? with
    | none => rfl
    | some e =>
      simp only [Option.map_some']
      by_cases hp : 0 + k = i
      · rw [if_pos hp]
        have hki : k = i := by omega
        subst hki
        rw [harr, Option.some_inj] at hk
        subst hk
        rfl
      · rw [if_neg hp]
        split <;> rfl

/-- off the pivot, the resolver leaves `effectiveFeePerVsize` and
`cpfpChecked` untouched (only `bestDescendant` of ancestors moves). -/
lemma setRel_effState_ne (arr : List Tx) (i k : ℕ) (hk : k ≠ i) :
    ((setRelativesAndGetCpfpInfo arr i)[k]?).map effState
      = (arr[k]?).map effState := by
  unfold setRelativesAndGetCpfpInfo
  cases harr : arr.get? i with
  | none => rfl
  | some tx =>
    rw [resolveApply_get?]
    cases hke : arr[k]? with
    | none => rfl
    | some e =>
      simp only [Option.map_some']
      rw [if_neg (by omega)]
      split <;> rfl

/-- `rangeSumW` through the weight projection. -/
lemma rangeSumW_eq_map (arr : List Tx) (a b : ℕ) :
    rangeSumW arr a b = (((arr.map Tx.weight).take b).drop a).sum := by
  simp [rangeSumW, sumW, List.map_drop, List.map_take]

/-- lists with equal skeletons have equal range weights. -/
lemma rangeSumW_congr (arr arr2 : List Tx) (h : arr2.map resSkel = arr.map resSkel)
    (a b : ℕ) : rangeSumW arr2 a b = rangeSumW arr a b := by
  have hw : arr2.map Tx.weight = arr.map Tx.weight := by
    have h2 := congrArg (List.map Prod.snd) h
    simpa [List.map_map, Function.comp] using h2
  rw [rangeSumW_eq_map, rangeSumW_eq_map, hw]

/-- peeling the first index off a weight range. -/
lemma rangeSumW_split (arr : List Tx) (k j : ℕ) (tx : Tx)
    (harr : arr[k]? = some tx) (hkj : k ≤ j) :
    rangeSumW arr k (j + 1) = tx.weight + rangeSumW arr (k + 1) (j + 1) := by
  obtain ⟨hkl, he⟩ := List.getElem?_eq_some_iff.1 harr
  have hlen : k < (arr.take (j + 1)).length := by
    simp only [List.length_take]
    omega
  unfold rangeSumW
  rw [List.drop_eq_getElem_cons hlen]
  simp only [sumW, List.map_cons, List.sum_cons]
  congr 1
  rw [List.getElem_take]
  exact congrArg Tx.weight he

/-- frame of the resolution loop: the skeletons never change, records
already passed keep their resolution fields, and a record whose
inclusive running weight exceeds the hard-coded cap also keeps them. -/
lemma cpfpGo_spec :
    ∀ (fuel : ℕ) (arr : List Tx) (k tot : ℕ),
      (cpfpGo fuel arr k tot).map resSkel = arr.map resSkel ∧
      (∀ j, j < k → ((cpfpGo fuel arr k tot)[j]?).map effState
          = (arr[j]?).map effState) ∧
      (∀ j, k ≤ j → 4000000 * 8 < tot + rangeSumW arr k (j + 1) →
          ((cpfpGo fuel arr k tot)[j]?).map effState = (arr[j]?).map effState) := by
  intro fuel
  induction fuel with
  | zero =>
    intro arr k tot
    exact ⟨rfl, fun j _ => rfl, fun j _ _ => rfl⟩
  | succ fuel ih =>
    intro arr k tot
    have hstep : cpfpGo (fuel + 1) arr k tot
        = match arr.get? k with
          | none => arr
          | some tx =>
              if 4000000 * 8 < tot + tx.weight then
                cpfpGo fuel arr (k + 1) (tot + tx.weight)
              else
                cpfpGo fuel (setRelativesAndGetCpfpInfo arr k) (k + 1)
                  (tot + tx.weight) := rfl
    cases harr : arr.get? k with
    | none =>
      have h1 : cpfpGo (fuel + 1) arr k tot = arr := by rw [hstep, harr]
      rw [h1]
      exact ⟨rfl, fun j _ => rfl, fun j _ _ => rfl⟩
    | some tx =>
      have h1 : cpfpGo (fuel + 1) arr k tot
          = if 4000000 * 8 < tot + tx.weight then
              cpfpGo fuel arr (k + 1) (tot + tx.weight)
            else
              cpfpGo fuel (setRelativesAndGetCpfpInfo arr k) (k + 1)
                (tot + tx.weight) := by rw [hstep, harr]
      rw [List.get?_eq_getElem?] at harr
      rw [h1]
      by_cases hskip : 4000000 * 8 < tot + tx.weight
      · rw [if_pos hskip]
        obtain ⟨ha, hb, hc⟩ := ih arr (k + 1) (tot + tx.weight)
        refine ⟨ha, ?_, ?_⟩
        · intro j hj
          exact hb j (by omega)
        · intro j hjk hcap
          rcases Nat.eq_or_lt_of_le hjk with heq | hlt
          · exact hb j (by omega)
          · apply hc j (by omega)
            have hsplit := rangeSumW_split arr k j tx harr hjk
            omega
      · rw [if_neg hskip]
        obtain ⟨ha, hb, hc⟩ := ih (setRelativesAndGetCpfpInfo arr k) (k + 1)
          (tot + tx.weight)
        have hskel := setRel_map_resSkel arr k
        refine ⟨ha.trans hskel, ?_, ?_⟩
        · intro j hj
          rw [hb j (by omega)]
          exact setRel_effState_ne arr k j (by omega)
        · intro j hjk hcap
          rcases Nat.eq_or_lt_of_le hjk with heq | hlt
          · exfalso
            have hsplit := rangeSumW_split arr k j tx harr hjk
            have hz : rangeSumW arr (k + 1) (j + 1) = 0 := by
              unfold rangeSumW
              rw [List.drop_eq_nil_of_le (by simp only [List.length_take]; omega)]
              simp [sumW]
            omega
          · rw [hc j (by omega) ?hcap2]
            · exact setRel_effState_ne arr k j (by omega)
            case hcap2 =>
              have hsplit := rangeSumW_split arr k j tx harr hjk
              rw [rangeSumW_congr arr (setRelativesAndGetCpfpInfo arr k)
                (setRel_map_resSkel arr k)]
              omega

/-- txid projection through a skeleton equality. -/
lemma map_txid_of_map_resSkel (l1 l2 : List Tx)
    (h : l1.map resSkel = l2.map resSkel) :
    l1.map Tx.txid = l2.map Tx.txid := by
  have h2 := congrArg (List.map Prod.fst) h
  simpa [List.map_map, Function.comp] using h2

/-- the resolution pass keeps every txid in place. -/
lemma cpfpPass_map_txid (arr : List Tx) :
    (cpfpPass arr).map Tx.txid = arr.map Tx.txid := by
  exact map_txid_of_map_resSkel _ _ (cpfpGo_spec arr.length arr 0 0).1

/-- the full fast-path pipeline permutes the mempool's txids. -/
lemma resolvedSorted_txid_perm (memPool : List Tx) :
    List.Perm ((resolvedSorted memPool).map Tx.txid) (memPool.map Tx.txid) := by
  have h1 : List.Perm ((resolvedSorted memPool).map Tx.txid)
      ((cpfpPass (sortedInitial memPool)).map Tx.txid) :=
    (List.perm_insertionSort _ _).map Tx.txid
  rw [cpfpPass_map_txid] at h1
  have h2 : List.Perm ((sortedInitial memPool).map Tx.txid)
      ((memPool.map clearTx).map Tx.txid) :=
    (List.perm_insertionSort _ _).map Tx.txid
  have h3 : (memPool.map clearTx).map Tx.txid = memPool.map Tx.txid := by
    simp [List.map_map, Function.comp, clearTx]
  exact h1.trans (h2.trans (by rw [h3]))

/-- txids of the packed groups, flattened, are the packing order's
txids. -/
lemma flatten_packGroups_txid (cfg : Config) (txs : List Tx) :
    (packGroups cfg txs).flatten.map Tx.txid = txs.map Tx.txid := by
  have he := congrArg (List.map Tx.txid) (flatten_packGroups cfg txs)
  rw [List.map_map, List.map_map] at he
  have hcomp : Tx.txid ∘ erasePos = Tx.txid := by
    funext t
    rfl
  rwa [hcomp] at he

/-- flattened `transactionIds` of the fast-path blocks. -/
lemma runUpdateBlocks_flatten_ids (cfg : Config) (memPool : List Tx) :
    ((runUpdateBlocks cfg memPool).map
        MempoolBlockWithTransactions.transactionIds).flatten
      = (resolvedSorted memPool).map Tx.txid := by
  have h1 : (runUpdateBlocks cfg memPool).map
        MempoolBlockWithTransactions.transactionIds
      = (packGroups cfg (resolvedSorted memPool)).map (fun g => g.map Tx.txid) := by
    simp only [runUpdateBlocks, calculateMempoolBlocks, List.map_map]
    rfl
  rw [h1, ← List.map_flatten, flatten_packGroups_txid]

/-- C8 (claim theorem): for a mempool map (distinct keys, keys being
the txid fields), every txid in any `transactionIds` of the blocks
`updateMempoolBlocks` returns is a key of the input mempool, and no
txid occurs twice across all the blocks of the snapshot. -/
theorem c8_txid_partition_rule (cfg : Config) (s : SavedState) (memPool : List Tx)
    (saveResults : Bool) (hnd : (memPool.map Tx.txid).Nodup) :
    (∀ b ∈ (updateMempoolBlocks cfg s memPool saveResults).2,
        ∀ t ∈ b.transactionIds, t ∈ memPool.map Tx.txid) ∧
    (((updateMempoolBlocks cfg s memPool saveResults).2.map
        MempoolBlockWithTransactions.transactionIds).flatten).Nodup := by
  have hsnd : (updateMempoolBlocks cfg s memPool saveResults).2
      = runUpdateBlocks cfg memPool := by
    unfold updateMempoolBlocks
    split <;> rfl
  rw [hsnd]
  have hperm : List.Perm (((runUpdateBlocks cfg memPool).map
        MempoolBlockWithTransactions.transactionIds).flatten)
      (memPool.map Tx.txid) := by
    rw [runUpdateBlocks_flatten_ids]
    exact resolvedSorted_txid_perm memPool
  constructor
  · intro b hb t ht
    have hmem : t ∈ ((runUpdateBlocks cfg memPool).map
        MempoolBlockWithTransactions.transactionIds).flatten :=
      List.mem_flatten.2 ⟨b.transactionIds,
        List.mem_map_of_mem MempoolBlockWithTransactions.transactionIds hb, ht⟩
    exact hperm.mem_iff.1 hmem
  · exact hperm.nodup_iff.2 hnd

/-- C8 witness at a concrete input. -/
theorem c8_txid_partition_witness :
    (∀ b ∈ (updateMempoolBlocks defaultConfig ⟨[], []⟩ exSmallPool false).2,
        ∀ t ∈ b.transactionIds, t ∈ exSmallPool.map Tx.txid) ∧
    (((updateMempoolBlocks defaultConfig ⟨[], []⟩ exSmallPool false).2.map
        MempoolBlockWithTransactions.transactionIds).flatten).Nodup :=
  c8_txid_partition_rule defaultConfig ⟨[], []⟩ exSmallPool false
    (by with_unfolding_all decide)

/-- C1 (amended claim theorem): in `updateMempoolBlocks`, a
transaction of the `feePerVsize`-sorted array whose inclusive running
weight exceeds the hard-coded `4000000 * 8` cap is skipped by the
resolution loop — at the end of the call its `cpfpChecked` is still the
cleared `false` — and its `effectiveFeePerVsize` still carries the
value of the initialization step: its `feePerVsize` when its incoming
`effectiveFeePerVsize` was unset (zero), and its unchanged incoming
`effectiveFeePerVsize` otherwise. -/
theorem c1_weight_cap_amended (cfg : Config) (memPool : List Tx)
    (hnd : (memPool.map Tx.txid).Nodup)
    (m : Tx) (i : ℕ)
    (hget : (sortedInitial memPool)[i]? = some (clearTx m))
    (hcap : 4000000 * 8 < sumW ((sortedInitial memPool).take (i + 1))) :
    ∀ u ∈ finalMempoolArray cfg memPool, u.txid = m.txid →
      u.cpfpChecked = some false ∧
      u.effectiveFeePerVsize
        = (if m.effectiveFeePerVsize = 0 then m.feePerVsize
           else m.effectiveFeePerVsize) := by
  intro u hu hutxid
  obtain ⟨hskel, _, hc⟩ :=
    cpfpGo_spec (sortedInitial memPool).length (sortedInitial memPool) 0 0
  have hcap' : 4000000 * 8 < 0 + rangeSumW (sortedInitial memPool) 0 (i + 1) := by
    simpa [rangeSumW] using hcap
  have heff : ((cpfpPass (sortedInitial memPool))[i]?).map effState
      = (((sortedInitial memPool))[i]?).map effState :=
    hc i (Nat.zero_le i) hcap'
  rw [hget] at heff
  have hw : ∃ w, (cpfpPass (sortedInitial memPool))[i]? = some w := by
    cases hq : (cpfpPass (sortedInitial memPool))[i]? with
    | none => rw [hq] at heff; simp at heff
    | some w => exact ⟨w, rfl⟩
  obtain ⟨w, hwq⟩ := hw
  rw [hwq, Option.map_some', Option.map_some', Option.some_inj] at heff
  have hskel2 : ((cpfpPass (sortedInitial memPool)).map resSkel)
      = (sortedInitial memPool).map resSkel := hskel
  have hwskel : ((cpfpPass (sortedInitial memPool))[i]?).map resSkel
      = (((sortedInitial memPool))[i]?).map resSkel := by
    have h2 := congrArg (fun l => l[i]?) hskel2
    simpa [List.getElem?_map] using h2
  rw [hwq, hget, Option.map_some', Option.map_some', Option.some_inj] at hwskel
  have hwtxid : w.txid = m.txid := by
    have := congrArg Prod.fst hwskel
    simpa [resSkel, clearTx] using this
  have hnd1 : ((cpfpPass (sortedInitial memPool)).map Tx.txid).Nodup := by
    rw [cpfpPass_map_txid]
    have h2 : List.Perm ((sortedInitial memPool).map Tx.txid)
        ((memPool.map clearTx).map Tx.txid) :=
      (List.perm_insertionSort _ _).map Tx.txid
    have h3 : (memPool.map clearTx).map Tx.txid = memPool.map Tx.txid := by
      simp [List.map_map, Function.comp, clearTx]
    rw [h3] at h2
    exact h2.nodup_iff.2 hnd
  have humem : u ∈ (packGroups cfg (resolvedSorted memPool)).flatten := hu
  have hue : erasePos u ∈ (resolvedSorted memPool).map erasePos := by
    rw [← flatten_packGroups cfg (resolvedSorted memPool)]
    exact List.mem_map_of_mem erasePos humem
  rcases List.mem_map.1 hue with ⟨v, hv, hve⟩
  have hvtxid : v.txid = u.txid := by
    have h2 := congrArg Tx.txid hve
    simpa [erasePos] using h2
  have hveff : v.effectiveFeePerVsize = u.effectiveFeePerVsize := by
    have h2 := congrArg Tx.effectiveFeePerVsize hve
    simpa [erasePos] using h2
  have hvcp : v.cpfpChecked = u.cpfpChecked := by
    have h2 := congrArg Tx.cpfpChecked hve
    simpa [erasePos] using h2
  have hvmem : v ∈ cpfpPass (sortedInitial memPool) := by
    have h2 : v ∈ resolvedSorted memPool := hv
    rw [resolvedSorted] at h2
    exact (List.mem_insertionSort _).1 h2
  have hwmem : w ∈ cpfpPass (sortedInitial memPool) := by
    obtain ⟨hilen, hival⟩ := List.getElem?_eq_some_iff.1 hwq
    rw [← hival]
    exact List.getElem_mem hilen
  have hvw : v = w := List.inj_on_of_nodup_map hnd1 hvmem hwmem
    (by rw [hvtxid, hutxid, ← hwtxid])
  have hcp : w.cpfpChecked = some false := by
    have h2 := congrArg Prod.snd heff
    simpa [effState, clearTx] using h2
  have hef : w.effectiveFeePerVsize
      = (if m.effectiveFeePerVsize = 0 then m.feePerVsize
         else m.effectiveFeePerVsize) := by
    have h2 := congrArg Prod.fst heff
    simpa [effState, clearTx] using h2
  constructor
  · rw [← hvcp, hvw]
    exact hcp
  · rw [← hveff, hvw]
    exact hef

/-- C1 counterexample: one transaction of weight `40000000` (beyond
the `4000000 * 8` resolution cap) entering with a stale nonzero
`effectiveFeePerVsize = 5` and `feePerVsize = 1` is skipped by the
resolver, yet its `effectiveFeePerVsize` at the end of the call is
still `5`, not its `feePerVsize`. -/
theorem c1_weight_cap_counterexample :
    4000000 * 8 < sumW ((sortedInitial exStaleEff).take (0 + 1)) ∧
    (∃ u ∈ finalMempoolArray defaultConfig exStaleEff,
      u.txid = "t1" ∧ u.cpfpChecked = some false ∧
      u.effectiveFeePerVsize = 5 ∧ u.feePerVsize = 1 ∧
      u.effectiveFeePerVsize ≠ u.feePerVsize) := by
  constructor
  · with_unfolding_all decide
  · with_unfolding_all decide

/-- C1 witness at a concrete input with an unset incoming
`effectiveFeePerVsize`. -/
theorem c1_weight_cap_witness :
    ((finalMempoolArray defaultConfig exUnsetEff).getD 0
        (baseTx "x" 0 0 0 0 0)).cpfpChecked = some false ∧
    ((finalMempoolArray defaultConfig exUnsetEff).getD 0
        (baseTx "x" 0 0 0 0 0)).effectiveFeePerVsize = 3 := by
  have h := c1_weight_cap_amended defaultConfig exUnsetEff
    (by with_unfolding_all decide)
    (baseTx "t1" 10 40000000 10000000 3 0) 0
    (by with_unfolding_all rfl) (by with_unfolding_all decide)
  have hq : (finalMempoolArray defaultConfig exUnsetEff)[0]?
      = some ((finalMempoolArray defaultConfig exUnsetEff).getD 0
          (baseTx "x" 0 0 0 0 0)) := by
    with_unfolding_all rfl
  have hmem := List.getElem?_eq_some_iff.1 hq
  obtain ⟨hlen, hval⟩ := hmem
  have h2 := h ((finalMempoolArray defaultConfig exUnsetEff).getD 0
      (baseTx "x" 0 0 0 0 0)) (by rw [← hval]; exact List.getElem_mem hlen)
    (by with_unfolding_all rfl)
  simpa [baseTx] using h2
